import Mathlib

/-!
Shallow embedding of the cipher module (`ciphers.py`): alphabet loading,
text validation, and the Caesar, Vigenère and Atbash transformations.
Strings are modelled as `List Char`; Python exceptions are modelled by the
`Except` monad with a structured error type.  Python's `%` on integers with
a positive divisor agrees with Lean's `Int.emod`; `%` by zero, which raises
`ZeroDivisionError` in Python, is modelled by an explicit guard.
-/

deriving instance DecidableEq for Except

namespace Ciphers

/-- Error values of the module.  In Python, `AlphabetError` is a subclass of
`CipherError`; here the generic (non-alphabet) `CipherError` is the
`cipherError` constructor, so the two kinds are distinguishable.
`zeroDivisionError` models Python's built-in `ZeroDivisionError`, which is
not a `CipherError` at all, and `fileNotFoundError` models the built-in
`FileNotFoundError`. -/
inductive CipherErr where
  | alphabetError (msg : String)
  | cipherError (msg : String)
  | fileNotFoundError (msg : String)
  | zeroDivisionError
  deriving DecidableEq, Repr

/-- A character surrounded by ASCII single-quote characters (code 39). -/
def quoteChar (c : Char) : String :=
  String.mk [Char.ofNat 39, c, Char.ofNat 39]

/-- Message of the `AlphabetError` raised by `validate_text`:
`Символ '<c>' не найден в алфавите`. -/
def charNotFoundMsg (c : Char) : String :=
  "Символ " ++ quoteChar c ++ " не найден в алфавите"

/-- Message of the `CipherError` raised by `vigenere_cipher` on an empty key. -/
def emptyKeyMsg : String := "Ключ не может быть пустым"

/-- Message of the `AlphabetError` raised by `read_alphabet` on empty content. -/
def emptyAlphabetMsg : String := "Алфавит не может быть пустым"

/-- Message of the `AlphabetError` raised by `read_alphabet` on duplicates. -/
def duplicateAlphabetMsg : String := "Алфавит содержит повторяющиеся символы"

/-- Message of the `FileNotFoundError` raised by `read_alphabet`. -/
def alphabetNotFoundMsg (filepath : String) : String :=
  "Файл с алфавитом не найден: " ++ filepath

/-- Python's `str.strip()` on a character list: drop whitespace from both
ends. -/
def stripChars (l : List Char) : List Char :=
  ((l.dropWhile Char.isWhitespace).reverse.dropWhile Char.isWhitespace).reverse

/-- Embedding of `read_alphabet(filepath)`.  The ambient file system is
modelled by the `contents` argument: `none` means the file does not exist
(the `open` call raises `FileNotFoundError`), `some s` means the file was
read and yielded the character sequence `s`.  The body mirrors the source:
strip the content, fail on empty content, fail when
`len(alphabet) != len(set(alphabet))` (i.e. some character repeats, since
`set` counts the distinct characters), otherwise return the stripped
content. -/
def read_alphabet (filepath : String) (contents : Option (List Char)) :
    Except CipherErr (List Char) :=
  match contents with
  | none => Except.error (CipherErr.fileNotFoundError (alphabetNotFoundMsg filepath))
  | some s =>
    let alphabet := stripChars s
    if alphabet.length = 0 then
      Except.error (CipherErr.alphabetError emptyAlphabetMsg)
    else if alphabet.length ≠ alphabet.dedup.length then
      Except.error (CipherErr.alphabetError duplicateAlphabetMsg)
    else
      Except.ok alphabet

/-- Embedding of `validate_text(text, alphabet)`: walk the text in order and
raise `AlphabetError` at the first character that is neither in the alphabet
nor a space. -/
def validate_text (text alphabet : List Char) : Except CipherErr Unit :=
  match text with
  | [] => Except.ok ()
  | c :: rest =>
    if c ∉ alphabet ∧ c ≠ ' ' then
      Except.error (CipherErr.alphabetError (charNotFoundMsg c))
    else
      validate_text rest alphabet

/-- The per-character transformation of the Caesar loop body: spaces are
copied through; otherwise shift the character's alphabet index by `+key`
(encrypt) or `-key` (decrypt) modulo the alphabet length and look the new
index up in the alphabet.  The computed index is always in range whenever
the alphabet is non-empty, so the `getD` default is never used then. -/
def caesarShiftChar (alphabet : List Char) (key : Int) (encrypt : Bool)
    (c : Char) : Char :=
  if c = ' ' then ' '
  else
    let n : Int := alphabet.length
    let idx : Int := alphabet.indexOf c
    let newIdx : Int := if encrypt then (idx + key) % n else (idx - key) % n
    alphabet.getD newIdx.toNat ' '

/-- Embedding of `caesar_cipher(text, key, alphabet, encrypt)`. -/
def caesar_cipher (text : List Char) (key : Int) (alphabet : List Char)
    (encrypt : Bool) : Except CipherErr (List Char) :=
  match validate_text text alphabet with
  | Except.error e => Except.error e
  | Except.ok _ => Except.ok (text.map (caesarShiftChar alphabet key encrypt))

/-- The loop of `vigenere_cipher` over `enumerate(text)`, after the key has
been validated and space-stripped (`key2` is the stripped key).  `i` is the
running `enumerate` index, which advances on every text position, spaces
included.  Python evaluates `key[i % len(key)]`; when the stripped key is
empty that `%` raises `ZeroDivisionError`, modelled by the explicit guard. -/
def vigenereLoop (alphabet key2 : List Char) (encrypt : Bool) :
    Nat → List Char → Except CipherErr (List Char)
  | _, [] => Except.ok []
  | i, c :: rest =>
    if c = ' ' then
      match vigenereLoop alphabet key2 encrypt (i + 1) rest with
      | Except.error e => Except.error e
      | Except.ok r => Except.ok (' ' :: r)
    else if key2.length = 0 then
      Except.error CipherErr.zeroDivisionError
    else
      let n : Int := alphabet.length
      let textIdx : Int := alphabet.indexOf c
      let keyIdx : Int := alphabet.indexOf (key2.getD (i % key2.length) ' ')
      let newIdx : Int :=
        if encrypt then (textIdx + keyIdx) % n else (textIdx - keyIdx) % n
      match vigenereLoop alphabet key2 encrypt (i + 1) rest with
      | Except.error e => Except.error e
      | Except.ok r => Except.ok (alphabet.getD newIdx.toNat ' ' :: r)

/-- Embedding of `vigenere_cipher(text, key, alphabet, encrypt)`: validate
the text, validate the key, fail with the generic `CipherError` when the key
is the empty string, strip spaces from the key, then run the enumerate loop
from index 0. -/
def vigenere_cipher (text key alphabet : List Char) (encrypt : Bool) :
    Except CipherErr (List Char) :=
  match validate_text text alphabet with
  | Except.error e => Except.error e
  | Except.ok _ =>
    match validate_text key alphabet with
    | Except.error e => Except.error e
    | Except.ok _ =>
      if key.isEmpty then
        Except.error (CipherErr.cipherError emptyKeyMsg)
      else
        vigenereLoop alphabet (key.filter (fun c => c != ' ')) encrypt 0 text

/-- Embedding of `atbash_cipher(text, alphabet, encrypt)`: validate the text,
then map every non-space character at alphabet index `idx` to
`reversed_alphabet[idx]`.  The `encrypt` flag is accepted but unused, exactly
as in the source. -/
def atbash_cipher (text alphabet : List Char) (encrypt : Bool) :
    Except CipherErr (List Char) :=
  match validate_text text alphabet with
  | Except.error e => Except.error e
  | Except.ok _ =>
    let reversedAlphabet := alphabet.reverse
    Except.ok (text.map (fun c =>
      if c = ' ' then ' ' else reversedAlphabet.getD (alphabet.indexOf c) ' '))

/-- Holds (as `true`) exactly on a result that is the generic
(non-alphabet) `CipherError`. -/
def resultIsGenericCipherError : Except CipherErr (List Char) → Bool
  | Except.error (CipherErr.cipherError _) => true
  | _ => false

/-- The shape invariant relating an input text to a cipher output: same
length, spaces at exactly the same positions, and every non-space output
character a member of the alphabet. -/
def shapePreserved (text out alphabet : List Char) : Prop :=
  out.length = text.length ∧
  ∀ p, p < text.length →
    ((out.getD p ' ' = ' ') ↔ (text.getD p ' ' = ' ')) ∧
    (out.getD p ' ' ≠ ' ' → out.getD p ' ' ∈ alphabet)

instance (text out alphabet : List Char) :
    Decidable (shapePreserved text out alphabet) := by
  unfold shapePreserved
  infer_instance

/-! ### Helper lemmas -/

theorem validate_text_ok_iff (text alphabet : List Char) :
    validate_text text alphabet = Except.ok () ↔
      ∀ c ∈ text, c ∈ alphabet ∨ c = ' ' := by
  induction text with
  | nil => simp [validate_text]
  | cons c rest ih =>
    by_cases h : c ∉ alphabet ∧ c ≠ ' '
    · rw [validate_text, if_pos h]
      constructor
      · intro habs; exact absurd habs (by simp)
      · intro hall
        rcases hall c (List.mem_cons_self c rest) with h1 | h1
        · exact absurd h1 h.1
        · exact absurd h1 h.2
    · rw [validate_text, if_neg h, ih]
      constructor
      · intro hall d hd
        rcases List.mem_cons.mp hd with rfl | hd
        · by_cases hm : d ∈ alphabet
          · exact Or.inl hm
          · exact Or.inr (by push_neg at h; exact h hm)
        · exact hall d hd
      · intro hall d hd
        exact hall d (List.mem_cons_of_mem c hd)

theorem validate_text_find (text alphabet : List Char) (c : Char)
    (h : text.find? (fun x => decide (x ∉ alphabet ∧ x ≠ ' ')) = some c) :
    validate_text text alphabet =
      Except.error (CipherErr.alphabetError (charNotFoundMsg c)) := by
  induction text with
  | nil => simp [List.find?] at h
  | cons d rest ih =>
    rw [List.find?_cons] at h
    by_cases hd : d ∉ alphabet ∧ d ≠ ' '
    · rw [decide_eq_true hd] at h
      simp only [Option.some.injEq] at h
      subst h
      rw [validate_text, if_pos hd]
    · rw [decide_eq_false hd] at h
      rw [validate_text, if_neg hd]
      exact ih h

theorem getD_indexOf {alphabet : List Char} {c : Char} (h : c ∈ alphabet)
    (d : Char) : alphabet.getD (alphabet.indexOf c) d = c := by
  have hlt : alphabet.indexOf c < alphabet.length := List.indexOf_lt_length.mpr h
  rw [List.getD_eq_getElem?_getD, List.getElem?_eq_getElem hlt]
  simp [List.getElem_indexOf hlt]

theorem getD_mem {alphabet : List Char} {j : Nat} (h : j < alphabet.length)
    (d : Char) : alphabet.getD j d ∈ alphabet := by
  rw [List.getD_eq_getElem?_getD, List.getElem?_eq_getElem h]
  exact List.getElem_mem h

theorem indexOf_getD {alphabet : List Char} (hnd : alphabet.Nodup) {j : Nat}
    (h : j < alphabet.length) (d : Char) :
    alphabet.indexOf (alphabet.getD j d) = j := by
  rw [List.getD_eq_getElem?_getD, List.getElem?_eq_getElem h]
  simpa using List.indexOf_getElem hnd j h

theorem emod_toNat_lt {n : Nat} (hn : 0 < n) (x : Int) :
    (x % (n : Int)).toNat < n := by
  have hne : (n : Int) ≠ 0 := by exact_mod_cast hn.ne.symm
  have h1 : 0 ≤ x % (n : Int) := Int.emod_nonneg x hne
  have h2 : x % (n : Int) < (n : Int) := Int.emod_lt_of_pos x (by exact_mod_cast hn)
  omega

theorem emod_toNat_cast {n : Nat} (hn : 0 < n) (x : Int) :
    (((x % (n : Int)).toNat : Int)) = x % (n : Int) := by
  have hne : (n : Int) ≠ 0 := by exact_mod_cast hn.ne.symm
  exact Int.toNat_of_nonneg (Int.emod_nonneg x hne)

theorem emod_shift_cancel {n a k : Int} (h0 : 0 ≤ a) (h1 : a < n) :
    ((a + k) % n - k) % n = a := by
  have step : ((a + k) % n - k) % n = ((a + k) - k) % n := by
    rw [Int.sub_emod ((a + k) % n) k n, Int.emod_emod_of_dvd _ dvd_rfl,
      ← Int.sub_emod]
  rw [step, Int.add_sub_cancel]
  exact Int.emod_eq_of_lt h0 h1

theorem getD_map (f : Char → Char) (T : List Char) {p : Nat}
    (h : p < T.length) (d d' : Char) :
    (T.map f).getD p d = f (T.getD p d') := by
  rw [List.getD_eq_getElem?_getD, List.getElem?_map, List.getElem?_eq_getElem h,
    List.getD_eq_getElem?_getD, List.getElem?_eq_getElem h]
  rfl

theorem caesarShiftChar_space (alphabet : List Char) (key : Int) (m : Bool) :
    caesarShiftChar alphabet key m ' ' = ' ' := by
  rw [caesarShiftChar, if_pos rfl]

theorem caesarShiftChar_encrypt (alphabet : List Char) (key : Int) {c : Char}
    (hc : c ≠ ' ') :
    caesarShiftChar alphabet key true c =
      alphabet.getD
        (((alphabet.indexOf c : Int) + key) % (alphabet.length : Int)).toNat
        ' ' := by
  rw [caesarShiftChar, if_neg hc]
  rfl

theorem caesarShiftChar_decrypt (alphabet : List Char) (key : Int) {c : Char}
    (hc : c ≠ ' ') :
    caesarShiftChar alphabet key false c =
      alphabet.getD
        (((alphabet.indexOf c : Int) - key) % (alphabet.length : Int)).toNat
        ' ' := by
  rw [caesarShiftChar, if_neg hc]
  rfl

theorem caesarShiftChar_mem {alphabet : List Char} (hA : alphabet ≠ [])
    (key : Int) (m : Bool) {c : Char} (hc : c ≠ ' ') :
    caesarShiftChar alphabet key m c ∈ alphabet := by
  have hn : 0 < alphabet.length := List.length_pos.mpr hA
  cases m
  · rw [caesarShiftChar_decrypt alphabet key hc]
    exact getD_mem (emod_toNat_lt hn _) _
  · rw [caesarShiftChar_encrypt alphabet key hc]
    exact getD_mem (emod_toNat_lt hn _) _

theorem caesarShiftChar_roundtrip {alphabet : List Char} (hnd : alphabet.Nodup)
    (hsp : ' ' ∉ alphabet) {c : Char} (hc : c ∈ alphabet ∨ c = ' ') (key : Int) :
    caesarShiftChar alphabet key false (caesarShiftChar alphabet key true c) = c := by
  rcases hc with hc | hc
  · have hA : alphabet ≠ [] := List.ne_nil_of_mem hc
    have hn : 0 < alphabet.length := List.length_pos.mpr hA
    have hcsp : c ≠ ' ' := fun h => hsp (h ▸ hc)
    have hidx : alphabet.indexOf c < alphabet.length :=
      List.indexOf_lt_length.mpr hc
    rw [caesarShiftChar_encrypt alphabet key hcsp]
    set j : Nat :=
      (((alphabet.indexOf c : Int) + key) % (alphabet.length : Int)).toNat
      with hj_def
    have hjlt : j < alphabet.length := emod_toNat_lt hn _
    have he_mem : alphabet.getD j ' ' ∈ alphabet := getD_mem hjlt ' '
    have he_sp : alphabet.getD j ' ' ≠ ' ' := fun h => hsp (h ▸ he_mem)
    rw [caesarShiftChar_decrypt alphabet key he_sp, indexOf_getD hnd hjlt,
      hj_def, emod_toNat_cast hn _]
    have hcancel : ((((alphabet.indexOf c : Int) + key) %
        (alphabet.length : Int)) - key) % (alphabet.length : Int) =
        (alphabet.indexOf c : Int) := by
      refine emod_shift_cancel (Int.ofNat_nonneg _) ?_
      exact_mod_cast hidx
    rw [hcancel, Int.toNat_ofNat]
    exact getD_indexOf hc ' '
  · subst hc
    rw [caesarShiftChar_space, caesarShiftChar_space]

/-- Claim C1 counterexample: with the duplicate-free, non-empty alphabet
`"a b"` (which contains a space), text `"a"` and key 1, encrypting maps
the character a to the alphabet character at index 1, which is the space;
decrypting then copies that space through unchanged, so the round trip
returns `" "` instead of `"a"`. -/
theorem caesar_roundtrip_cex :
    (caesar_cipher ['a'] 1 ['a', ' ', 'b'] true).bind
        (fun e => caesar_cipher e 1 ['a', ' ', 'b'] false) = Except.ok [' '] ∧
    (Except.ok [' '] : Except CipherErr (List Char)) ≠ Except.ok ['a'] := by
  decide

/-- Claim C1 (amended): for every non-empty, duplicate-free alphabet that
does not contain the space character, every text over the alphabet plus
spaces, and every integer key, Caesar decryption of the Caesar encryption
returns the original text. -/
theorem caesar_roundtrip (alphabet text : List Char) (key : Int)
    (hA : alphabet ≠ []) (hnd : alphabet.Nodup) (hsp : ' ' ∉ alphabet)
    (hT : ∀ c ∈ text, c ∈ alphabet ∨ c = ' ') :
    (caesar_cipher text key alphabet true).bind
      (fun e => caesar_cipher e key alphabet false) = Except.ok text := by
  have hv : validate_text text alphabet = Except.ok () :=
    (validate_text_ok_iff text alphabet).mpr hT
  rw [caesar_cipher, hv]
  simp only [Except.bind]
  have hmapvalid : ∀ c ∈ text.map (caesarShiftChar alphabet key true),
      c ∈ alphabet ∨ c = ' ' := by
    intro c hc
    obtain ⟨d, hd, rfl⟩ := List.mem_map.mp hc
    by_cases hdsp : d = ' '
    · subst hdsp; right; exact caesarShiftChar_space alphabet key true
    · left; exact caesarShiftChar_mem hA key true hdsp
  have hv2 : validate_text (text.map (caesarShiftChar alphabet key true))
      alphabet = Except.ok () :=
    (validate_text_ok_iff _ alphabet).mpr hmapvalid
  rw [caesar_cipher, hv2, List.map_map]
  have hpt : ∀ c ∈ text,
      (caesarShiftChar alphabet key false ∘ caesarShiftChar alphabet key true) c
        = id c := fun c hc => caesarShiftChar_roundtrip hnd hsp (hT c hc) key
  rw [List.map_congr_left hpt, List.map_id]

/-- Claim C1 witness: the amended round trip at alphabet abc, text with a
trailing space, key 5. -/
theorem caesar_roundtrip_witness :
    (caesar_cipher ['a', 'b', ' '] 5 ['a', 'b', 'c'] true).bind
      (fun e => caesar_cipher e 5 ['a', 'b', 'c'] false) =
      Except.ok ['a', 'b', ' '] :=
  caesar_roundtrip ['a', 'b', 'c'] ['a', 'b', ' '] 5 (by decide) (by decide)
    (by decide) (by decide)

theorem caesarShiftChar_key_mod (alphabet : List Char) (key : Int) (m : Bool)
    (c : Char) :
    caesarShiftChar alphabet key m c =
      caesarShiftChar alphabet (key % (alphabet.length : Int)) m c := by
  by_cases hc : c = ' '
  · subst hc
    rw [caesarShiftChar_space, caesarShiftChar_space]
  · cases m
    · rw [caesarShiftChar_decrypt alphabet key hc,
        caesarShiftChar_decrypt alphabet _ hc]
      have harg : ((alphabet.indexOf c : Int) - key) % (alphabet.length : Int) =
          ((alphabet.indexOf c : Int) - key % (alphabet.length : Int)) %
            (alphabet.length : Int) := by
        conv_lhs => rw [Int.sub_emod]
        conv_rhs => rw [Int.sub_emod, Int.emod_emod_of_dvd _ dvd_rfl]
      rw [harg]
    · rw [caesarShiftChar_encrypt alphabet key hc,
        caesarShiftChar_encrypt alphabet _ hc]
      have harg : ((alphabet.indexOf c : Int) + key) % (alphabet.length : Int) =
          ((alphabet.indexOf c : Int) + key % (alphabet.length : Int)) %
            (alphabet.length : Int) := by
        conv_lhs => rw [Int.add_emod]
        conv_rhs => rw [Int.add_emod, Int.emod_emod_of_dvd _ dvd_rfl]
      rw [harg]

/-- Claim C7: for every non-empty duplicate-free alphabet, valid text,
mode and arbitrary integer key (negative keys and keys larger than the
alphabet length included), Caesar succeeds, every output character is an
alphabet member or a space (all computed indices are in range), and the
result coincides with the result for the non-negatively normalized key
`key mod n`. -/
theorem caesar_key_mod (alphabet text : List Char) (key : Int) (m : Bool)
    (hA : alphabet ≠ []) (_hnd : alphabet.Nodup)
    (hT : ∀ c ∈ text, c ∈ alphabet ∨ c = ' ') :
    (∃ out, caesar_cipher text key alphabet m = Except.ok out ∧
      ∀ c ∈ out, c ∈ alphabet ∨ c = ' ') ∧
    caesar_cipher text key alphabet m =
      caesar_cipher text (key % (alphabet.length : Int)) alphabet m := by
  have hv : validate_text text alphabet = Except.ok () :=
    (validate_text_ok_iff text alphabet).mpr hT
  constructor
  · refine ⟨text.map (caesarShiftChar alphabet key m), ?_, ?_⟩
    · rw [caesar_cipher, hv]
    · intro c hc
      obtain ⟨d, hd, rfl⟩ := List.mem_map.mp hc
      by_cases hdsp : d = ' '
      · subst hdsp
        right
        exact caesarShiftChar_space alphabet key m
      · left
        exact caesarShiftChar_mem hA key m hdsp
  · rw [caesar_cipher, caesar_cipher, hv]
    have hpt : ∀ c ∈ text, caesarShiftChar alphabet key m c =
        caesarShiftChar alphabet (key % (alphabet.length : Int)) m c :=
      fun c _ => caesarShiftChar_key_mod alphabet key m c
    rw [List.map_congr_left hpt]

/-- Claim C7 witness: a negative key far beyond the alphabet length, at
alphabet abc, text ab with a space, encrypt mode. -/
theorem caesar_key_mod_witness :
    (∃ out, caesar_cipher ['a', ' ', 'b'] (-7) ['a', 'b', 'c'] true =
        Except.ok out ∧ ∀ c ∈ out, c ∈ (['a', 'b', 'c'] : List Char) ∨ c = ' ') ∧
    caesar_cipher ['a', ' ', 'b'] (-7) ['a', 'b', 'c'] true =
      caesar_cipher ['a', ' ', 'b'] ((-7 : Int) % (3 : Int)) ['a', 'b', 'c'] true :=
  caesar_key_mod ['a', 'b', 'c'] ['a', ' ', 'b'] (-7) true (by decide)
    (by decide) (by decide)

/-- The per-character transformation of the Atbash loop body (proof-side
name for the lambda inside `atbash_cipher`). -/
def atbashChar (alphabet : List Char) (c : Char) : Char :=
  if c = ' ' then ' ' else alphabet.reverse.getD (alphabet.indexOf c) ' '

theorem atbash_cipher_ok {text alphabet : List Char}
    (hv : validate_text text alphabet = Except.ok ()) (m : Bool) :
    atbash_cipher text alphabet m =
      Except.ok (text.map (atbashChar alphabet)) := by
  rw [atbash_cipher, hv]
  rfl

theorem atbashChar_space (alphabet : List Char) : atbashChar alphabet ' ' = ' ' := by
  rw [atbashChar, if_pos rfl]

theorem reverse_getD {alphabet : List Char} {j : Nat} (h : j < alphabet.length)
    (d : Char) :
    alphabet.reverse.getD j d = alphabet.getD (alphabet.length - 1 - j) d := by
  have h' : j < alphabet.reverse.length := by simpa using h
  have h'' : alphabet.length - 1 - j < alphabet.length := by omega
  rw [List.getD_eq_getElem?_getD, List.getElem?_eq_getElem h',
    List.getD_eq_getElem?_getD, List.getElem?_eq_getElem h'']
  simp [List.getElem_reverse]

theorem atbashChar_mem {alphabet : List Char} {c : Char} (hc : c ∈ alphabet)
    (hcsp : c ≠ ' ') : atbashChar alphabet c ∈ alphabet := by
  rw [atbashChar, if_neg hcsp]
  have hidx : alphabet.indexOf c < alphabet.reverse.length := by
    simpa using List.indexOf_lt_length.mpr hc
  exact List.mem_reverse.mp (getD_mem hidx ' ')

theorem atbashChar_invol {alphabet : List Char} (hnd : alphabet.Nodup)
    (hsp : ' ' ∉ alphabet) {c : Char} (hc : c ∈ alphabet ∨ c = ' ') :
    atbashChar alphabet (atbashChar alphabet c) = c := by
  rcases hc with hc | hc
  · have hcsp : c ≠ ' ' := fun h => hsp (h ▸ hc)
    have hidx : alphabet.indexOf c < alphabet.length :=
      List.indexOf_lt_length.mpr hc
    have hmir : alphabet.length - 1 - alphabet.indexOf c < alphabet.length := by
      omega
    have he : atbashChar alphabet c =
        alphabet.getD (alphabet.length - 1 - alphabet.indexOf c) ' ' := by
      rw [atbashChar, if_neg hcsp, reverse_getD hidx]
    have he_mem : atbashChar alphabet c ∈ alphabet := atbashChar_mem hc hcsp
    have he_sp : atbashChar alphabet c ≠ ' ' := fun h => hsp (h ▸ he_mem)
    rw [atbashChar, if_neg he_sp, he, indexOf_getD hnd hmir, reverse_getD hmir]
    have hback : alphabet.length - 1 - (alphabet.length - 1 - alphabet.indexOf c) =
        alphabet.indexOf c := by omega
    rw [hback]
    exact getD_indexOf hc ' '
  · subst hc
    rw [atbashChar_space, atbashChar_space]

/-- Claim C4 counterexample: with the duplicate-free, non-empty alphabet
`"ab c"` (a space at index 2) and text `"b"`, Atbash maps b (index 1) to
the reversed alphabet's character at index 1, which is the space; applying
Atbash again copies that space through, so the double application returns
`" "` instead of `"b"` — the involution fails when the alphabet contains a
space. -/
theorem atbash_involution_cex :
    (atbash_cipher ['b'] ['a', 'b', ' ', 'c'] true).bind
      (fun e => atbash_cipher e ['a', 'b', ' ', 'c'] true) = Except.ok [' '] ∧
    (Except.ok [' '] : Except CipherErr (List Char)) ≠ Except.ok ['b'] := by
  decide

/-- Claim C4 (amended): for every non-empty, duplicate-free alphabet that
does not contain the space character and every text over the alphabet plus
spaces, applying Atbash twice returns the original text; moreover, for all
inputs whatsoever the encrypt/decrypt flag has no effect on the result. -/
theorem atbash_involution (alphabet text : List Char)
    (_hA : alphabet ≠ []) (hnd : alphabet.Nodup) (hsp : ' ' ∉ alphabet)
    (hT : ∀ c ∈ text, c ∈ alphabet ∨ c = ' ') :
    ((atbash_cipher text alphabet true).bind
      (fun e => atbash_cipher e alphabet true) = Except.ok text) ∧
    ∀ (t a : List Char), atbash_cipher t a true = atbash_cipher t a false := by
  refine ⟨?_, fun t a => rfl⟩
  have hv : validate_text text alphabet = Except.ok () :=
    (validate_text_ok_iff text alphabet).mpr hT
  rw [atbash_cipher_ok hv]
  simp only [Except.bind]
  have hmapvalid : ∀ c ∈ text.map (atbashChar alphabet),
      c ∈ alphabet ∨ c = ' ' := by
    intro c hc
    obtain ⟨d, hd, rfl⟩ := List.mem_map.mp hc
    rcases hT d hd with hd' | hd'
    · by_cases hdsp : d = ' '
      · subst hdsp; right; exact atbashChar_space alphabet
      · left; exact atbashChar_mem hd' hdsp
    · subst hd'; right; exact atbashChar_space alphabet
  have hv2 : validate_text (text.map (atbashChar alphabet)) alphabet =
      Except.ok () := (validate_text_ok_iff _ alphabet).mpr hmapvalid
  rw [atbash_cipher_ok hv2, List.map_map]
  have hpt : ∀ c ∈ text, (atbashChar alphabet ∘ atbashChar alphabet) c = id c :=
    fun c hc => atbashChar_invol hnd hsp (hT c hc)
  rw [List.map_congr_left hpt, List.map_id]

/-- Claim C4 witness: the amended involution at alphabet abc, text with an
inner space. -/
theorem atbash_involution_witness :
    ((atbash_cipher ['b', ' ', 'a'] ['a', 'b', 'c'] true).bind
      (fun e => atbash_cipher e ['a', 'b', 'c'] true) =
        Except.ok ['b', ' ', 'a']) ∧
    ∀ (t a : List Char), atbash_cipher t a true = atbash_cipher t a false :=
  atbash_involution ['a', 'b', 'c'] ['b', ' ', 'a'] (by decide) (by decide)
    (by decide) (by decide)

/-- The per-character transformation of the Vigenère loop body at running
index `i` (proof-side name for the body of `vigenereLoop` on a non-space
character with a non-empty stripped key). -/
def vigenereChar (alphabet key2 : List Char) (encrypt : Bool) (i : Nat)
    (c : Char) : Char :=
  let n : Int := alphabet.length
  let textIdx : Int := alphabet.indexOf c
  let keyIdx : Int := alphabet.indexOf (key2.getD (i % key2.length) ' ')
  let newIdx : Int :=
    if encrypt then (textIdx + keyIdx) % n else (textIdx - keyIdx) % n
  alphabet.getD newIdx.toNat ' '

theorem vigenereLoop_nil (alphabet key2 : List Char) (m : Bool) (i : Nat) :
    vigenereLoop alphabet key2 m i [] = Except.ok [] := rfl

theorem vigenereLoop_cons_space (alphabet key2 : List Char) (m : Bool)
    (i : Nat) (rest : List Char) :
    vigenereLoop alphabet key2 m i (' ' :: rest) =
      match vigenereLoop alphabet key2 m (i + 1) rest with
      | Except.error e => Except.error e
      | Except.ok r => Except.ok (' ' :: r) := by
  rw [vigenereLoop, if_pos rfl]

theorem vigenereLoop_cons_zero (alphabet : List Char) (m : Bool) (i : Nat)
    {c : Char} (hc : c ≠ ' ') (rest : List Char) :
    vigenereLoop alphabet [] m i (c :: rest) =
      Except.error CipherErr.zeroDivisionError := by
  rw [vigenereLoop, if_neg hc,
    if_pos (show ([] : List Char).length = 0 from rfl)]

theorem vigenereLoop_cons (alphabet key2 : List Char) (m : Bool) (i : Nat)
    {c : Char} (hc : c ≠ ' ') (hk : key2.length ≠ 0) (rest : List Char) :
    vigenereLoop alphabet key2 m i (c :: rest) =
      match vigenereLoop alphabet key2 m (i + 1) rest with
      | Except.error e => Except.error e
      | Except.ok r => Except.ok (vigenereChar alphabet key2 m i c :: r) := by
  rw [vigenereLoop, if_neg hc, if_neg hk]
  rfl

theorem vigenereChar_encrypt (alphabet key2 : List Char) (i : Nat) (c : Char) :
    vigenereChar alphabet key2 true i c =
      alphabet.getD
        (((alphabet.indexOf c : Int) +
            (alphabet.indexOf (key2.getD (i % key2.length) ' ') : Int)) %
          (alphabet.length : Int)).toNat ' ' := rfl

theorem vigenereChar_decrypt (alphabet key2 : List Char) (i : Nat) (c : Char) :
    vigenereChar alphabet key2 false i c =
      alphabet.getD
        (((alphabet.indexOf c : Int) -
            (alphabet.indexOf (key2.getD (i % key2.length) ' ') : Int)) %
          (alphabet.length : Int)).toNat ' ' := rfl

theorem vigenereChar_mem {alphabet : List Char} (hA : alphabet ≠ [])
    (key2 : List Char) (m : Bool) (i : Nat) (c : Char) :
    vigenereChar alphabet key2 m i c ∈ alphabet := by
  have hn : 0 < alphabet.length := List.length_pos.mpr hA
  cases m
  · rw [vigenereChar_decrypt]
    exact getD_mem (emod_toNat_lt hn _) _
  · rw [vigenereChar_encrypt]
    exact getD_mem (emod_toNat_lt hn _) _

theorem vigenereChar_roundtrip {alphabet : List Char} (hnd : alphabet.Nodup)
    (key2 : List Char) (i : Nat) {c : Char}
    (hc : c ∈ alphabet) :
    vigenereChar alphabet key2 false i (vigenereChar alphabet key2 true i c)
      = c := by
  have hA : alphabet ≠ [] := List.ne_nil_of_mem hc
  have hn : 0 < alphabet.length := List.length_pos.mpr hA
  have hidx : alphabet.indexOf c < alphabet.length :=
    List.indexOf_lt_length.mpr hc
  rw [vigenereChar_encrypt]
  set j : Nat :=
    (((alphabet.indexOf c : Int) +
        (alphabet.indexOf (key2.getD (i % key2.length) ' ') : Int)) %
      (alphabet.length : Int)).toNat with hj_def
  have hjlt : j < alphabet.length := emod_toNat_lt hn _
  rw [vigenereChar_decrypt, indexOf_getD hnd hjlt, hj_def, emod_toNat_cast hn _]
  have hcancel : ((((alphabet.indexOf c : Int) +
      (alphabet.indexOf (key2.getD (i % key2.length) ' ') : Int)) %
        (alphabet.length : Int)) -
      (alphabet.indexOf (key2.getD (i % key2.length) ' ') : Int)) %
      (alphabet.length : Int) = (alphabet.indexOf c : Int) := by
    refine emod_shift_cancel (Int.ofNat_nonneg _) ?_
    exact_mod_cast hidx
  rw [hcancel, Int.toNat_ofNat]
  exact getD_indexOf hc ' '

theorem vigenereLoop_roundtrip (alphabet key2 : List Char)
    (hnd : alphabet.Nodup) (hsp : ' ' ∉ alphabet) (hk : key2 ≠ []) :
    ∀ (T : List Char) (i : Nat), (∀ c ∈ T, c ∈ alphabet ∨ c = ' ') →
    ∃ E, vigenereLoop alphabet key2 true i T = Except.ok E ∧
      (∀ c ∈ E, c ∈ alphabet ∨ c = ' ') ∧
      vigenereLoop alphabet key2 false i E = Except.ok T := by
  intro T
  induction T with
  | nil => exact fun i _ => ⟨[], rfl, by simp, rfl⟩
  | cons c rest ih =>
    intro i hT
    obtain ⟨E, hE1, hE2, hE3⟩ :=
      ih (i + 1) (fun d hd => hT d (List.mem_cons_of_mem c hd))
    have hkl : key2.length ≠ 0 := fun h => hk (List.length_eq_zero.mp h)
    by_cases hc : c = ' '
    · subst hc
      refine ⟨' ' :: E, ?_, ?_, ?_⟩
      · rw [vigenereLoop_cons_space, hE1]
      · intro d hd
        rcases List.mem_cons.mp hd with rfl | hd
        · exact Or.inr rfl
        · exact hE2 d hd
      · rw [vigenereLoop_cons_space, hE3]
    · have hcA : c ∈ alphabet := (hT c (List.mem_cons_self c rest)).resolve_right hc
      have hA : alphabet ≠ [] := List.ne_nil_of_mem hcA
      have he_mem : vigenereChar alphabet key2 true i c ∈ alphabet :=
        vigenereChar_mem hA key2 true i c
      have he_sp : vigenereChar alphabet key2 true i c ≠ ' ' :=
        fun h => hsp (h ▸ he_mem)
      refine ⟨vigenereChar alphabet key2 true i c :: E, ?_, ?_, ?_⟩
      · rw [vigenereLoop_cons alphabet key2 true i hc hkl, hE1]
      · intro d hd
        rcases List.mem_cons.mp hd with rfl | hd
        · exact Or.inl he_mem
        · exact hE2 d hd
      · rw [vigenereLoop_cons alphabet key2 false i he_sp hkl, hE3,
          vigenereChar_roundtrip hnd key2 i hcA]

/-- Claim C2 counterexample: with the duplicate-free, non-empty alphabet
`"a b"` (a space at index 1), text `"b"` and key `"b"` (a key drawn from
the alphabet), encryption maps b (index 2) with key index 2 to index
`(2+2) mod 3 = 1`, the space; decryption copies the space through, so the
round trip returns `" "` instead of `"b"`. -/
theorem vigenere_roundtrip_cex :
    (vigenere_cipher ['b'] ['b'] ['a', ' ', 'b'] true).bind
      (fun e => vigenere_cipher e ['b'] ['a', ' ', 'b'] false) =
      Except.ok [' '] ∧
    (Except.ok [' '] : Except CipherErr (List Char)) ≠ Except.ok ['b'] := by
  decide

/-- Claim C2 (amended): for every non-empty, duplicate-free alphabet that
does not contain the space character, every text over the alphabet plus
spaces, and every non-empty key drawn from the alphabet's characters,
Vigenère decryption of the Vigenère encryption returns the original text. -/
theorem vigenere_roundtrip (alphabet text key : List Char)
    (hnd : alphabet.Nodup) (hsp : ' ' ∉ alphabet) (hK : key ≠ [])
    (hKA : ∀ c ∈ key, c ∈ alphabet)
    (hT : ∀ c ∈ text, c ∈ alphabet ∨ c = ' ') :
    (vigenere_cipher text key alphabet true).bind
      (fun e => vigenere_cipher e key alphabet false) = Except.ok text := by
  have hvT : validate_text text alphabet = Except.ok () :=
    (validate_text_ok_iff text alphabet).mpr hT
  have hvK : validate_text key alphabet = Except.ok () :=
    (validate_text_ok_iff key alphabet).mpr (fun c hc => Or.inl (hKA c hc))
  have hkeysp : ∀ c ∈ key, c ≠ ' ' := fun c hc h => hsp (h ▸ hKA c hc)
  have hfilter : key.filter (fun c => c != ' ') = key :=
    List.filter_eq_self.mpr (fun c hc => bne_iff_ne.mpr (hkeysp c hc))
  have hkempty : key.isEmpty = false := List.isEmpty_eq_false.mpr hK
  obtain ⟨E, hE1, hE2, hE3⟩ :=
    vigenereLoop_roundtrip alphabet key hnd hsp hK text 0 hT
  have hvE : validate_text E alphabet = Except.ok () :=
    (validate_text_ok_iff E alphabet).mpr hE2
  rw [vigenere_cipher, hvT]
  simp only [hvK, hkempty, Bool.false_eq_true, if_false]
  rw [hfilter, hE1]
  simp only [Except.bind]
  rw [vigenere_cipher, hvE]
  simp only [hvK, hkempty, Bool.false_eq_true, if_false]
  rw [hfilter, hE3]

/-- Claim C2 witness: the amended round trip at alphabet abc, a text with a
space, key bc. -/
theorem vigenere_roundtrip_witness :
    (vigenere_cipher ['a', ' ', 'c'] ['b', 'c'] ['a', 'b', 'c'] true).bind
      (fun e => vigenere_cipher e ['b', 'c'] ['a', 'b', 'c'] false) =
      Except.ok ['a', ' ', 'c'] :=
  vigenere_roundtrip ['a', 'b', 'c'] ['a', ' ', 'c'] ['b', 'c'] (by decide)
    (by decide) (by decide) (by decide) (by decide)

/-- Claim C3: Vigenère with alphabet abcdef, text ab cd and key ba encrypts
to bb ce — the key index advances on every text position including the
space, while the space itself is copied through untranslated — and
decrypting bb ce with the same key returns ab cd. -/
theorem vigenere_space_counting :
    vigenere_cipher ['a', 'b', ' ', 'c', 'd'] ['b', 'a']
        ['a', 'b', 'c', 'd', 'e', 'f'] true =
      Except.ok ['b', 'b', ' ', 'c', 'e'] ∧
    vigenere_cipher ['b', 'b', ' ', 'c', 'e'] ['b', 'a']
        ['a', 'b', 'c', 'd', 'e', 'f'] false =
      Except.ok ['a', 'b', ' ', 'c', 'd'] := by
  decide

/-- Claim C5 counterexample: with alphabet `"a"`, the invalid text `"x"`
and the empty key, `vigenere_cipher` fails with the `AlphabetError` for x
raised by text validation, not with the generic empty-key `CipherError`:
text validation runs before the empty-key check. -/
theorem vigenere_empty_key_cex :
    vigenere_cipher ['x'] [] ['a'] true =
      Except.error (CipherErr.alphabetError (charNotFoundMsg 'x')) ∧
    resultIsGenericCipherError (vigenere_cipher ['x'] [] ['a'] true) = false := by
  decide

/-- Claim C5 (amended): for every alphabet, every text whose characters all
lie in the alphabet or are spaces, and either mode, calling
`vigenere_cipher` with the empty key fails with the generic `CipherError`
(distinct from `AlphabetError`), before any output is produced. -/
theorem vigenere_empty_key (alphabet text : List Char) (m : Bool)
    (hT : ∀ c ∈ text, c ∈ alphabet ∨ c = ' ') :
    vigenere_cipher text [] alphabet m =
      Except.error (CipherErr.cipherError emptyKeyMsg) := by
  have hvT : validate_text text alphabet = Except.ok () :=
    (validate_text_ok_iff text alphabet).mpr hT
  rw [vigenere_cipher, hvT]
  rfl

/-- Claim C5 witness: the amended statement at alphabet ab, text b a,
encrypt mode. -/
theorem vigenere_empty_key_witness :
    vigenere_cipher ['b', ' ', 'a'] [] ['a', 'b'] true =
      Except.error (CipherErr.cipherError emptyKeyMsg) :=
  vigenere_empty_key ['a', 'b'] ['b', ' ', 'a'] true (by decide)

theorem vigenereLoop_empty_key2 (alphabet : List Char) (m : Bool) :
    ∀ (T : List Char) (i : Nat), (∃ c ∈ T, c ≠ ' ') →
    vigenereLoop alphabet [] m i T =
      Except.error CipherErr.zeroDivisionError := by
  intro T
  induction T with
  | nil => intro i h; simp at h
  | cons c rest ih =>
    intro i h
    by_cases hc : c = ' '
    · subst hc
      have hrest : ∃ d ∈ rest, d ≠ ' ' := by
        obtain ⟨d, hd, hdne⟩ := h
        rcases List.mem_cons.mp hd with rfl | hd
        · exact absurd rfl hdne
        · exact ⟨d, hd, hdne⟩
      rw [vigenereLoop_cons_space, ih (i + 1) hrest]
    · rw [vigenereLoop_cons_zero alphabet m i hc rest]

/-- Claim C6 counterexample: with alphabet `"a"`, the all-space key `" "`
and the text `"xa"` — which does contain the non-space alphabet character
a — the code fails with the `AlphabetError` for x raised by text
validation, not with `ZeroDivisionError`: the claim's quantification over
texts must be restricted to texts that pass validation. -/
theorem vigenere_all_space_key_cex :
    vigenere_cipher ['x', 'a'] [' '] ['a'] true =
      Except.error (CipherErr.alphabetError (charNotFoundMsg 'x')) ∧
    vigenere_cipher ['x', 'a'] [' '] ['a'] true ≠
      Except.error CipherErr.zeroDivisionError := by
  decide

/-- Claim C6 (amended): for every alphabet, every non-empty key consisting
only of spaces, every mode, and every text whose characters all lie in the
alphabet or are spaces and which contains at least one non-space character,
the key passes validation, it passes the emptiness check, stripping spaces
from it leaves the empty list, and the cipher terminates with the untyped
`ZeroDivisionError` of `key[i % len(key)]` rather than any `CipherError`. -/
theorem vigenere_all_space_key (alphabet text key : List Char) (m : Bool)
    (hK : key ≠ []) (hKsp : ∀ c ∈ key, c = ' ')
    (hT : ∀ c ∈ text, c ∈ alphabet ∨ c = ' ')
    (hTn : ∃ c ∈ text, c ≠ ' ') :
    validate_text key alphabet = Except.ok () ∧
    key.isEmpty = false ∧
    key.filter (fun c => c != ' ') = [] ∧
    vigenere_cipher text key alphabet m =
      Except.error CipherErr.zeroDivisionError := by
  have hvT : validate_text text alphabet = Except.ok () :=
    (validate_text_ok_iff text alphabet).mpr hT
  have hvK : validate_text key alphabet = Except.ok () :=
    (validate_text_ok_iff key alphabet).mpr (fun c hc => Or.inr (hKsp c hc))
  have hkempty : key.isEmpty = false := List.isEmpty_eq_false.mpr hK
  have hfilter : key.filter (fun c => c != ' ') = [] :=
    List.filter_eq_nil_iff.mpr
      (fun c hc => by simp [hKsp c hc])
  refine ⟨hvK, hkempty, hfilter, ?_⟩
  rw [vigenere_cipher, hvT]
  simp only [hvK, hkempty, Bool.false_eq_true, if_false]
  rw [hfilter]
  exact vigenereLoop_empty_key2 alphabet m text 0 hTn

/-- Claim C6 witness: alphabet ab, text b a, key of two spaces, encrypt
mode: the run ends in ZeroDivisionError. -/
theorem vigenere_all_space_key_witness :
    validate_text [' ', ' '] ['a', 'b'] = Except.ok () ∧
    ([' ', ' '] : List Char).isEmpty = false ∧
    ([' ', ' '] : List Char).filter (fun c => c != ' ') = [] ∧
    vigenere_cipher ['b', ' ', 'a'] [' ', ' '] ['a', 'b'] true =
      Except.error CipherErr.zeroDivisionError :=
  vigenere_all_space_key ['a', 'b'] ['b', ' ', 'a'] [' ', ' '] true
    (by decide) (by decide) (by decide) ⟨'b', by decide⟩

theorem nodup_iff_dedup_length (l : List Char) :
    l.Nodup ↔ l.dedup.length = l.length := by
  constructor
  · intro h
    rw [List.dedup_eq_self.mpr h]
  · intro h
    have heq : l.dedup = l := (List.dedup_sublist l).eq_of_length h
    rw [← heq]
    exact List.nodup_dedup l

/-- Claim C8: `read_alphabet` fails with `FileNotFoundError` when the file
does not exist, fails with `AlphabetError` when the stripped content is
empty or contains a repeated character, and on success returns the
stripped content unchanged (so character order, hence position = cipher
index, is preserved). -/
theorem read_alphabet_spec :
    (∀ fp : String, read_alphabet fp none =
      Except.error (CipherErr.fileNotFoundError (alphabetNotFoundMsg fp))) ∧
    (∀ (fp : String) (s : List Char), (stripChars s).length = 0 →
      read_alphabet fp (some s) =
        Except.error (CipherErr.alphabetError emptyAlphabetMsg)) ∧
    (∀ (fp : String) (s : List Char), (stripChars s).length ≠ 0 →
      ¬ (stripChars s).Nodup →
      read_alphabet fp (some s) =
        Except.error (CipherErr.alphabetError duplicateAlphabetMsg)) ∧
    (∀ (fp : String) (s : List Char), (stripChars s).length ≠ 0 →
      (stripChars s).Nodup →
      read_alphabet fp (some s) = Except.ok (stripChars s)) := by
  refine ⟨fun fp => rfl, ?_, ?_, ?_⟩
  · intro fp s h
    rw [read_alphabet]
    simp only [if_pos h]
  · intro fp s h hnd
    have hdup : (stripChars s).length ≠ (stripChars s).dedup.length := by
      intro heq
      exact hnd ((nodup_iff_dedup_length (stripChars s)).mpr heq.symm)
    rw [read_alphabet]
    simp only [if_neg h, if_pos hdup]
  · intro fp s h hnd
    have hdup : ¬ (stripChars s).length ≠ (stripChars s).dedup.length := by
      intro hne
      exact hne ((nodup_iff_dedup_length (stripChars s)).mp hnd).symm
    rw [read_alphabet]
    simp only [if_neg h, if_neg hdup]

/-- Claim C8 witness: a missing file, the duplicate content aab, empty
content, and the successful load of content abc followed by a newline. -/
theorem read_alphabet_spec_witness :
    read_alphabet "alphabet.txt" none =
      Except.error
        (CipherErr.fileNotFoundError (alphabetNotFoundMsg "alphabet.txt")) ∧
    read_alphabet "alphabet.txt" (some ['a', 'a', 'b']) =
      Except.error (CipherErr.alphabetError duplicateAlphabetMsg) ∧
    read_alphabet "alphabet.txt" (some []) =
      Except.error (CipherErr.alphabetError emptyAlphabetMsg) ∧
    read_alphabet "alphabet.txt" (some ['a', 'b', 'c', '\n']) =
      Except.ok ['a', 'b', 'c'] :=
  ⟨read_alphabet_spec.1 "alphabet.txt",
   read_alphabet_spec.2.2.1 "alphabet.txt" ['a', 'a', 'b'] (by decide)
     (by decide),
   read_alphabet_spec.2.1 "alphabet.txt" [] (by decide),
   by
     have h := read_alphabet_spec.2.2.2 "alphabet.txt" ['a', 'b', 'c', '\n']
       (by decide) (by decide)
     simpa using h⟩

/-- Claim C9: `validate_text` succeeds exactly when every character of the
text is a space or an alphabet member, and on any other text it fails with
the `AlphabetError` naming the first (leftmost) offending character. -/
theorem validate_text_spec (text alphabet : List Char) :
    (validate_text text alphabet = Except.ok () ↔
      ∀ c ∈ text, c = ' ' ∨ c ∈ alphabet) ∧
    (∀ c : Char,
      text.find? (fun x => decide (x ∉ alphabet ∧ x ≠ ' ')) = some c →
      validate_text text alphabet =
        Except.error (CipherErr.alphabetError (charNotFoundMsg c))) := by
  constructor
  · rw [validate_text_ok_iff]
    constructor
    · intro h c hc
      exact (h c hc).symm
    · intro h c hc
      exact (h c hc).symm
  · intro c hc
    exact validate_text_find text alphabet c hc

/-- Claim C9 witness: validating xyz against abc fails naming x, the first
offending character, and validating a b c against abc succeeds. -/
theorem validate_text_spec_witness :
    validate_text ['x', 'y', 'z'] ['a', 'b', 'c'] =
      Except.error (CipherErr.alphabetError (charNotFoundMsg 'x')) ∧
    validate_text ['a', ' ', 'b', ' ', 'c'] ['a', 'b', 'c'] = Except.ok () :=
  ⟨(validate_text_spec ['x', 'y', 'z'] ['a', 'b', 'c']).2 'x' (by decide),
   (validate_text_spec ['a', ' ', 'b', ' ', 'c'] ['a', 'b', 'c']).1.mpr
     (by decide)⟩

theorem shapePreserved_map {alphabet T : List Char} (f : Char → Char)
    (hsp : ' ' ∉ alphabet) (hfsp : f ' ' = ' ')
    (hf : ∀ c ∈ T, c ≠ ' ' → f c ∈ alphabet) :
    shapePreserved T (T.map f) alphabet := by
  refine ⟨by simp, ?_⟩
  intro p hp
  rw [getD_map f T hp ' ' ' ']
  have hcT : T.getD p ' ' ∈ T := getD_mem hp ' '
  by_cases hcsp : T.getD p ' ' = ' '
  · rw [hcsp, hfsp]
    exact ⟨by simp, fun h => absurd rfl h⟩
  · have hfc : f (T.getD p ' ') ∈ alphabet := hf _ hcT hcsp
    have hfcsp : f (T.getD p ' ') ≠ ' ' := fun h => hsp (h ▸ hfc)
    exact ⟨⟨fun h => absurd h hfcsp, fun h => absurd h hcsp⟩, fun _ => hfc⟩

theorem vigenereLoop_shape (alphabet key2 : List Char) (hsp : ' ' ∉ alphabet)
    (hk : key2 ≠ []) (m : Bool) :
    ∀ (T : List Char) (i : Nat), (∀ c ∈ T, c ∈ alphabet ∨ c = ' ') →
    ∃ out, vigenereLoop alphabet key2 m i T = Except.ok out ∧
      shapePreserved T out alphabet := by
  intro T
  induction T with
  | nil =>
    intro i _
    exact ⟨[], rfl, rfl, fun p hp => absurd hp (Nat.not_lt_zero p)⟩
  | cons c rest ih =>
    intro i hT
    obtain ⟨out, h1, hlen, hpt⟩ :=
      ih (i + 1) (fun d hd => hT d (List.mem_cons_of_mem c hd))
    have hkl : key2.length ≠ 0 := fun h => hk (List.length_eq_zero.mp h)
    by_cases hc : c = ' '
    · subst hc
      refine ⟨' ' :: out, ?_, ?_, ?_⟩
      · rw [vigenereLoop_cons_space, h1]
      · simpa using hlen
      · intro p hp
        cases p with
        | zero => exact ⟨by simp, fun h => absurd rfl h⟩
        | succ q =>
          simp only [List.getD_cons_succ]
          exact hpt q (by simpa using hp)
    · have hcA : c ∈ alphabet := (hT c (List.mem_cons_self c rest)).resolve_right hc
      have hA : alphabet ≠ [] := List.ne_nil_of_mem hcA
      have he_mem : vigenereChar alphabet key2 m i c ∈ alphabet :=
        vigenereChar_mem hA key2 m i c
      have he_sp : vigenereChar alphabet key2 m i c ≠ ' ' :=
        fun h => hsp (h ▸ he_mem)
      refine ⟨vigenereChar alphabet key2 m i c :: out, ?_, ?_, ?_⟩
      · rw [vigenereLoop_cons alphabet key2 m i hc hkl, h1]
      · simpa using hlen
      · intro p hp
        cases p with
        | zero =>
          exact ⟨⟨fun h => absurd h he_sp, fun h => absurd h hc⟩,
            fun _ => he_mem⟩
        | succ q =>
          simp only [List.getD_cons_succ]
          exact hpt q (by simpa using hp)

/-- Claim C10 counterexample: with the duplicate-free, non-empty alphabet
`"a b"` (a space at index 1), text `"a"` and key 1, Caesar encryption
outputs `" "`: the output has a space at position 0 where the input has the
non-space a, so the claimed space-position invariant fails when the
alphabet contains a space. -/
theorem cipher_shape_cex :
    caesar_cipher ['a'] 1 ['a', ' ', 'b'] true = Except.ok [' '] ∧
    ¬ shapePreserved ['a'] [' '] ['a', ' ', 'b'] := by
  decide

/-- Claim C10 (amended): for every non-empty, duplicate-free alphabet that
does not contain the space character and every valid text, each of the
three ciphers (Caesar with any integer key, Vigenère with any non-empty
key drawn from the alphabet, Atbash; any mode) succeeds and returns a text
of the same length, with spaces exactly at the input's space positions and
all other characters members of the alphabet. -/
theorem cipher_shape (alphabet text : List Char) (hA : alphabet ≠ [])
    (_hnd : alphabet.Nodup) (hsp : ' ' ∉ alphabet)
    (hT : ∀ c ∈ text, c ∈ alphabet ∨ c = ' ') :
    (∀ (key : Int) (m : Bool), ∃ out,
      caesar_cipher text key alphabet m = Except.ok out ∧
      shapePreserved text out alphabet) ∧
    (∀ (key : List Char) (m : Bool), key ≠ [] → (∀ c ∈ key, c ∈ alphabet) →
      ∃ out, vigenere_cipher text key alphabet m = Except.ok out ∧
        shapePreserved text out alphabet) ∧
    (∀ m : Bool, ∃ out, atbash_cipher text alphabet m = Except.ok out ∧
      shapePreserved text out alphabet) := by
  have hvT : validate_text text alphabet = Except.ok () :=
    (validate_text_ok_iff text alphabet).mpr hT
  refine ⟨?_, ?_, ?_⟩
  · intro key m
    refine ⟨text.map (caesarShiftChar alphabet key m), by rw [caesar_cipher, hvT], ?_⟩
    exact shapePreserved_map _ hsp (caesarShiftChar_space alphabet key m)
      (fun c _ hcsp => caesarShiftChar_mem hA key m hcsp)
  · intro key m hK hKA
    have hvK : validate_text key alphabet = Except.ok () :=
      (validate_text_ok_iff key alphabet).mpr (fun c hc => Or.inl (hKA c hc))
    have hkeysp : ∀ c ∈ key, c ≠ ' ' := fun c hc h => hsp (h ▸ hKA c hc)
    have hfilter : key.filter (fun c => c != ' ') = key :=
      List.filter_eq_self.mpr (fun c hc => bne_iff_ne.mpr (hkeysp c hc))
    have hkempty : key.isEmpty = false := List.isEmpty_eq_false.mpr hK
    obtain ⟨out, h1, h2⟩ := vigenereLoop_shape alphabet key hsp hK m text 0 hT
    refine ⟨out, ?_, h2⟩
    rw [vigenere_cipher, hvT]
    simp only [hvK, hkempty, Bool.false_eq_true, if_false]
    rw [hfilter, h1]
  · intro m
    refine ⟨text.map (atbashChar alphabet), atbash_cipher_ok hvT m, ?_⟩
    exact shapePreserved_map _ hsp (atbashChar_space alphabet)
      (fun c hc hcsp => atbashChar_mem ((hT c hc).resolve_right hcsp) hcsp)

/-- Claim C10 witness: the amended shape invariant at alphabet abc and text
a b, for Caesar with key 5, Vigenère with key c, and Atbash. -/
theorem cipher_shape_witness :
    (∃ out, caesar_cipher ['a', ' ', 'b'] 5 ['a', 'b', 'c'] true =
      Except.ok out ∧ shapePreserved ['a', ' ', 'b'] out ['a', 'b', 'c']) ∧
    (∃ out, vigenere_cipher ['a', ' ', 'b'] ['c'] ['a', 'b', 'c'] true =
      Except.ok out ∧ shapePreserved ['a', ' ', 'b'] out ['a', 'b', 'c']) ∧
    (∃ out, atbash_cipher ['a', ' ', 'b'] ['a', 'b', 'c'] false =
      Except.ok out ∧ shapePreserved ['a', ' ', 'b'] out ['a', 'b', 'c']) :=
  ⟨(cipher_shape ['a', 'b', 'c'] ['a', ' ', 'b'] (by decide) (by decide)
      (by decide) (by decide)).1 5 true,
   (cipher_shape ['a', 'b', 'c'] ['a', ' ', 'b'] (by decide) (by decide)
      (by decide) (by decide)).2.1 ['c'] true (by decide) (by decide),
   (cipher_shape ['a', 'b', 'c'] ['a', ' ', 'b'] (by decide) (by decide)
      (by decide) (by decide)).2.2 false⟩

end Ciphers
